import Mathlib

/-!
Verification development for the multi-valued restricted Boltzmann machine
(`RbmMultival`, file `Sources/Machine/rbm_multival.cc`).

The machine holds a visible bias `a` (length `nv*ls`), a hidden bias `b`
(length `nh`) and a weight matrix `W` (shape `(nv*ls) × nh`).  Scalars are
complex floating-point numbers in the source; here they live in an arbitrary
commutative ring `R`, so every stated equality is exact (the spec's "within
floating tolerance" is subsumed).  Configurations assign a local value (type
`V`) to each of the `nv` sites; the local-value→index map `confindex_` is
modelled as an arbitrary function `ci : V → Fin ls`.  The externally supplied
numerically-stable `SumLogCosh` primitive and complex `tanh` are modelled as
abstract function parameters.
-/

namespace Netket

/-- The parameter store of `RbmMultival`: bias-enable flags and the
parameters `a_`, `b_`, `W_` (dimensions fixed at the type level, mirroring
their immutability after `Init`). -/
structure RbmMultival (R : Type) (nv ls nh : ℕ) where
  usea : Bool
  useb : Bool
  a : Fin (nv * ls) → R
  b : Fin nh → R
  W : Fin (nv * ls) → Fin nh → R

/-- Extended ("tilde") index `ls * sf + tilde` used throughout the source to
address rows of `W_` and entries of `a_` (e.g. `W_.row(ls_ * sf + oldtilde)`). -/
def extIndex {nv ls : ℕ} (s : Fin nv) (t : Fin ls) : Fin (nv * ls) :=
  ⟨ls * (s : ℕ) + (t : ℕ), by
    have hs : (s : ℕ) + 1 ≤ nv := s.isLt
    calc ls * (s : ℕ) + (t : ℕ) < ls * (s : ℕ) + ls := by
          exact Nat.add_lt_add_left t.isLt _
      _ = ls * ((s : ℕ) + 1) := by ring
      _ ≤ ls * nv := Nat.mul_le_mul_left ls hs
      _ = nv * ls := Nat.mul_comm ls nv⟩

/-- The site an extended index belongs to (`i / ls_`, the inverse of the
column selection by `mask_`). -/
def siteOf {nv ls : ℕ} (i : Fin (nv * ls)) : Fin nv :=
  ⟨(i : ℕ) / ls, Nat.div_lt_of_lt_mul (Nat.mul_comm nv ls ▸ i.isLt)⟩

/-- The local-value index inside the site block of an extended index
(`i % ls_`, matching the layout of `localconfs_`). -/
def tildeOf {nv ls : ℕ} (i : Fin (nv * ls)) : Fin ls :=
  ⟨(i : ℕ) % ls, by
    have hpos : 0 < nv * ls := Nat.lt_of_le_of_lt (Nat.zero_le _) i.isLt
    have hls : 0 < ls := by
      rcases Nat.eq_zero_or_pos ls with h0 | h0
      · rw [h0, Nat.mul_zero] at hpos
        exact absurd hpos (Nat.lt_irrefl 0)
      · exact h0
    exact Nat.mod_lt _ hls⟩

/-- The bijection between (site, local-index) pairs and extended indices. -/
def extEquiv (nv ls : ℕ) : Fin nv × Fin ls ≃ Fin (nv * ls) where
  toFun p := extIndex p.1 p.2
  invFun i := (siteOf i, tildeOf i)
  left_inv p := by
    have hls : 0 < ls := Nat.lt_of_le_of_lt (Nat.zero_le _) p.2.isLt
    refine Prod.ext (Fin.ext ?_) (Fin.ext ?_)
    · show (ls * (p.1 : ℕ) + (p.2 : ℕ)) / ls = (p.1 : ℕ)
      rw [Nat.mul_add_div hls, Nat.div_eq_of_lt p.2.isLt, Nat.add_zero]
    · show (ls * (p.1 : ℕ) + (p.2 : ℕ)) % ls = (p.2 : ℕ)
      rw [Nat.mul_add_mod, Nat.mod_eq_of_lt p.2.isLt]
  right_inv i := by
    refine Fin.ext ?_
    show ls * ((i : ℕ) / ls) + (i : ℕ) % ls = (i : ℕ)
    exact Nat.div_add_mod (i : ℕ) ls

variable {R V : Type} [CommRing R] {nv ls nh : ℕ}

/-- Modelled from the spec: the one-hot extended encoding of a configuration
(`Encode` in §4.1; the compiled body of `ComputeVtilde` lives in the class
header, with a disabled copy at the end of the source comparing `localconfs_`
against `mask_ * v`).  Entry `i` is `1` exactly when the local index of `i`
equals `confindex` of the configuration's value at the site of `i`. -/
def ComputeVtilde (ci : V → Fin ls) (v : Fin nv → V) (i : Fin (nv * ls)) : R :=
  if tildeOf i = ci (v (siteOf i)) then 1 else 0

/-- Modelled from the spec: the pre-activation vector
`theta = Wᵀ·vtilde + b` (`Init` in §4.3; the compiled body of `ComputeTheta`
lives in the class header, with a disabled copy at the end of the source). -/
def ComputeTheta (m : RbmMultival R nv ls nh) (ci : V → Fin ls)
    (v : Fin nv → V) (j : Fin nh) : R :=
  (∑ i : Fin (nv * ls), ComputeVtilde (R := R) ci v i * m.W i j) + m.b j

/-- `RbmMultival::InitLookup`: allocates the lookup and fills it with
`ComputeTheta(v, lt)`. -/
def InitLookup (m : RbmMultival R nv ls nh) (ci : V → Fin ls)
    (v : Fin nv → V) : Fin nh → R :=
  ComputeTheta m ci v

/-- The inner loop body of `RbmMultival::UpdateLookup`, over an already
zipped change list: for each `(sf, newValue)` pair it subtracts the `W_` row
of the OLD extended index (recomputed from the unchanged `v`) and adds the
row of the new one. -/
def updateLookupAux (m : RbmMultival R nv ls nh) (ci : V → Fin ls)
    (v : Fin nv → V) (changes : List (Fin nv × V)) (lt : Fin nh → R) :
    Fin nh → R :=
  changes.foldl
    (fun lt p => fun j =>
      lt j - m.W (extIndex p.1 (ci (v p.1))) j
           + m.W (extIndex p.1 (ci p.2)) j)
    lt

/-- `RbmMultival::UpdateLookup`: guarded by `tochange.size() != 0`, walks the
parallel lists `tochange`/`newconf` (modelled by zipping them) updating the
lookup row by row. -/
def UpdateLookup (m : RbmMultival R nv ls nh) (ci : V → Fin ls)
    (v : Fin nv → V) (tochange : List (Fin nv)) (newconf : List V)
    (lookup : Fin nh → R) : Fin nh → R :=
  if tochange.isEmpty then lookup
  else updateLookupAux m ci v (tochange.zip newconf) lookup

/-- Applying a zipped change list to a configuration (the configuration that
a lookup update is meant to track; later entries win on duplicate sites). -/
def updateConfAux (v : Fin nv → V) (changes : List (Fin nv × V)) :
    Fin nv → V :=
  changes.foldl (fun c p => Function.update c p.1 p.2) v

/-- Applying a `tochange`/`newconf` move to a configuration. -/
def updateConf (v : Fin nv → V) (tochange : List (Fin nv)) (newconf : List V) :
    Fin nv → V :=
  updateConfAux v (tochange.zip newconf)

/-- A random walk: a sequence of moves starting from configuration `v` and
lookup `th`, each step applying the move to the configuration and calling
`UpdateLookup` with the pre-move configuration (as the sampler does). -/
def runMoves (m : RbmMultival R nv ls nh) (ci : V → Fin ls)
    (moves : List (List (Fin nv) × List V)) (v : Fin nv → V)
    (th : Fin nh → R) : (Fin nv → V) × (Fin nh → R) :=
  moves.foldl
    (fun st mv =>
      (updateConf st.1 mv.1 mv.2, UpdateLookup m ci st.1 mv.1 mv.2 st.2))
    (v, th)

/-- `npar_` as computed by `RbmMultival::Init`:
`nv_ * nh_ * ls_` plus `nv_ * ls_` when the visible bias is used plus `nh_`
when the hidden bias is used. -/
def Npar (m : RbmMultival R nv ls nh) : ℕ :=
  nv * nh * ls + (if m.usea then nv * ls else 0) + (if m.useb then nh else 0)

/-- The sequential flatten shared verbatim by `GetParameters` and
`DerLogSingleImpl`: a running cursor `k` writes the `a`-sized segment when
the visible bias is used, then the `b`-sized segment when the hidden bias is
used, then the `W`-shaped segment row-major in (extended index, hidden
index). -/
def flatten (usea useb : Bool) (x : Fin (nv * ls) → R) (y : Fin nh → R)
    (z : Fin (nv * ls) → Fin nh → R) : List R :=
  (if usea then (List.finRange (nv * ls)).map x else [])
    ++ (if useb then (List.finRange nh).map y else [])
    ++ (List.finRange (nv * ls)).flatMap fun i => (List.finRange nh).map (z i)

/-- `RbmMultival::GetParameters`: flattens `a_` (if used), `b_` (if used) and
`W_` with a running cursor. -/
def GetParameters (m : RbmMultival R nv ls nh) : List R :=
  flatten m.usea m.useb m.a m.b m.W

/-- `RbmMultival::SetParameters`: reads the same cursor positions back;
disabled bias vectors are left untouched.  Out-of-range reads (undefined in
the source) default to `0`. -/
def SetParameters (m : RbmMultival R nv ls nh) (pars : List R) :
    RbmMultival R nv ls nh :=
  { usea := m.usea
    useb := m.useb
    a := if m.usea then fun i => pars.getD (i : ℕ) 0 else m.a
    b := if m.useb then
        fun p => pars.getD ((if m.usea then nv * ls else 0) + (p : ℕ)) 0
      else m.b
    W := fun i j =>
      pars.getD ((if m.usea then nv * ls else 0)
        + (if m.useb then nh else 0) + ((i : ℕ) * nh + (j : ℕ))) 0 }

/-- `RbmMultival::DerLogSingleImpl`: writes `vtilde` into the `a` segment (if
used), `tanh(theta)` into the `b` segment (if used), and
`tanh(theta_j) * vtilde_i` into the `W` segment, with the same running cursor
as `GetParameters`.  The complex `tanh` is external and abstract here. -/
def DerLogSingleImpl (tanh : R → R) (m : RbmMultival R nv ls nh)
    (ci : V → Fin ls) (v : Fin nv → V) (lookup : Fin nh → R) : List R :=
  flatten m.usea m.useb (ComputeVtilde ci v)
    (fun j => tanh (lookup j))
    (fun i j => tanh (lookup j) * ComputeVtilde ci v i)

/-- The inner loop of `RbmMultival::LogValDiff` for one move: starting from
accumulator `(0, thetas)` it accumulates the bias difference
`-a_(ls*sf+oldtilde) + a_(ls*sf+newtilde)` and updates the scratch
`thetasnew_` row by row, with the old index always recomputed from the base
configuration `v`. -/
def lvdFold (m : RbmMultival R nv ls nh) (ci : V → Fin ls) (v : Fin nv → V)
    (changes : List (Fin nv × V)) (acc : R × (Fin nh → R)) :
    R × (Fin nh → R) :=
  changes.foldl
    (fun acc p =>
      (acc.1 - m.a (extIndex p.1 (ci (v p.1))) + m.a (extIndex p.1 (ci p.2)),
       fun j =>
         acc.2 j - m.W (extIndex p.1 (ci (v p.1))) j
                 + m.W (extIndex p.1 (ci p.2)) j))
    acc

/-- `RbmMultival::LogValDiff` (the batch overload): recomputes `thetas_` from
scratch, takes `logtsum = SumLogCosh(thetas_)`, and for every move with a
nonempty change list returns
`biasDelta + SumLogCosh(thetasnew) - logtsum`; moves with an empty change
list keep their zero-initialized entry.  `slc` is the external
numerically-stable `SumLogCosh`; parallel lists are modelled by zipping. -/
def LogValDiff (slc : (Fin nh → R) → R) (m : RbmMultival R nv ls nh)
    (ci : V → Fin ls) (v : Fin nv → V) (tochange : List (List (Fin nv)))
    (newconf : List (List V)) : List R :=
  (tochange.zip newconf).map fun mv =>
    if mv.1.isEmpty then 0
    else
      (lvdFold m ci v (mv.1.zip mv.2) (0, ComputeTheta m ci v)).1
        + (slc (lvdFold m ci v (mv.1.zip mv.2) (0, ComputeTheta m ci v)).2
           - slc (ComputeTheta m ci v))

/-- The mutable state visible to `LogValDiff`: the parameter store, the
persistent lookup cache created by `InitLookup`, and the scratch members
`thetas_` / `thetasnew_` that the source overwrites. -/
structure EvalState (R : Type) (nv ls nh : ℕ) where
  m : RbmMultival R nv ls nh
  lookup : Fin nh → R
  thetas : Fin nh → R
  thetasnew : Fin nh → R

/-- State-passing form of `RbmMultival::LogValDiff`: `ComputeTheta` writes
the scratch `thetas_`, each nonempty move overwrites the scratch
`thetasnew_`, and nothing else in the state is touched; the returned batch is
the pure `LogValDiff` of the stored parameters. -/
def LogValDiffSt (slc : (Fin nh → R) → R) (ci : V → Fin ls)
    (st : EvalState R nv ls nh) (v : Fin nv → V)
    (tochange : List (List (Fin nv))) (newconf : List (List V)) :
    EvalState R nv ls nh × List R :=
  let thetas := ComputeTheta st.m ci v
  ({ st with
      thetas := thetas
      thetasnew := (tochange.zip newconf).foldl
        (fun tn mv =>
          if mv.1.isEmpty then tn
          else (lvdFold st.m ci v (mv.1.zip mv.2) (0, thetas)).2)
        st.thetasnew },
   LogValDiff slc st.m ci v tochange newconf)

/-- Comparison definition following the spec's words for the sequential-chain
reading that `UpdateLookup` does NOT implement: the old index of each change
is taken from the configuration as updated by the earlier changes of the same
call. -/
def updateLookupChained (m : RbmMultival R nv ls nh) (ci : V → Fin ls)
    (v : Fin nv → V) (tochange : List (Fin nv)) (newconf : List V)
    (lt : Fin nh → R) : Fin nh → R :=
  ((tochange.zip newconf).foldl
    (fun (acc : (Fin nv → V) × (Fin nh → R)) p =>
      (Function.update acc.1 p.1 p.2,
       fun j =>
         acc.2 j - m.W (extIndex p.1 (ci (acc.1 p.1))) j
                 + m.W (extIndex p.1 (ci p.2)) j))
    (v, lt)).2

/-- The configuration-space collaborator, at its interface: `Size()` and
`LocalSize()` (the ordered local-state list is abstracted by `ci`). -/
structure Hilbert where
  size : ℕ
  localSize : ℕ
  deriving DecidableEq

/-- Modelled from the spec (§6 persisted-state schema): the deserialized
record, with every field optional except the type tag; `FieldExists` /
`FieldOrDefaultVal` from the external JSON utilities are modelled by the
`Option` accessors. -/
structure RbmRecord (R : Type) where
  name : String
  nvisible : Option ℕ
  localsize : Option ℕ
  nhidden : Option ℕ
  alpha : Option ℕ
  usea : Option Bool
  useb : Option Bool
  a : Option (List R)
  b : Option (List R)
  w : Option (List (List R))
  deriving DecidableEq

/-- The machine's mutable fields as `Load` sees them, untyped in the
dimensions (so a dimension field can change while the arrays do not, exactly
as in the source, where `nv_` is an `int` member separate from the Eigen
arrays). -/
structure RbmRaw (R : Type) where
  nv : ℕ
  ls : ℕ
  nh : ℕ
  npar : ℕ
  usea : Bool
  useb : Bool
  a : List R
  b : List R
  w : List (List R)
  deriving DecidableEq

/-- `RbmMultival::Init` as it acts on the raw fields: resizes `a_`, `b_`,
`W_` to the current dimensions and recomputes `npar_`.  Eigen's `resize`
leaves reallocated storage uninitialized and `Init` only zeroes a disabled
bias; the unspecified contents are modelled as zeros throughout (no claim
depends on them). -/
def InitRaw [Zero R] (st : RbmRaw R) : RbmRaw R :=
  { st with
    npar := st.nv * st.nh * st.ls + (if st.usea then st.nv * st.ls else 0)
      + (if st.useb then st.nh else 0)
    a := List.replicate (st.nv * st.ls) 0
    b := List.replicate st.nh 0
    w := List.replicate (st.nv * st.ls) (List.replicate st.nh 0) }

/-- The tail of `RbmMultival::Load` after the hidden-unit count is settled:
reads the bias flags (defaulting to true), re-runs `Init`, then populates
`a_`, `b_` (zeroing them when absent) and `W_` (left as initialized when
absent). -/
def loadTail [Zero R] (st : RbmRaw R) (pars : RbmRecord R) : RbmRaw R :=
  let st1 := { st with usea := pars.usea.getD true, useb := pars.useb.getD true }
  let st2 := InitRaw st1
  let st3 := { st2 with a := pars.a.getD (List.replicate (st2.nv * st2.ls) 0) }
  let st4 := { st3 with b := pars.b.getD (List.replicate st2.nh 0) }
  match pars.w with
  | some w => { st4 with w := w }
  | none => st4

/-- `RbmMultival::Load`, mirroring the source's statement order: the type-tag
check; `nv_ = pars["Nvisible"]` (when present, i.e. `nv_` becomes
`pars.nvisible.getD nv_`) and only THEN the Hilbert-size check on the
freshly assigned `nv_`; likewise for `ls_`; then `Nhidden` or the legacy
`Alpha` (`FieldVal` throws when both are absent); then the tail.  Each thrown
`InvalidInputError` is modelled as an `Except.error` carrying the message and
the machine state at the moment of the throw — the state the caller's object
is left in. -/
def Load [Zero R] (hil : Hilbert) (st0 : RbmRaw R) (pars : RbmRecord R) :
    Except (String × RbmRaw R) (RbmRaw R) :=
  if pars.name ≠ "RbmMultival" then
    Except.error ("Error while constructing RbmMultival from Json input", st0)
  else if pars.nvisible.getD st0.nv ≠ hil.size then
    Except.error ("Loaded wave-function has incompatible Hilbert space",
      { st0 with nv := pars.nvisible.getD st0.nv })
  else if pars.localsize.getD st0.ls ≠ hil.localSize then
    Except.error ("Loaded wave-function has incompatible Hilbert space",
      { st0 with nv := pars.nvisible.getD st0.nv
                 ls := pars.localsize.getD st0.ls })
  else
    match pars.nhidden, pars.alpha with
    | some n, _ =>
      Except.ok (loadTail
        { st0 with nv := pars.nvisible.getD st0.nv
                   ls := pars.localsize.getD st0.ls
                   nh := n } pars)
    | none, some al =>
      Except.ok (loadTail
        { st0 with nv := pars.nvisible.getD st0.nv
                   ls := pars.localsize.getD st0.ls
                   nh := pars.nvisible.getD st0.nv * al } pars)
    | none, none =>
      Except.error ("Field Alpha is not defined in the input",
        { st0 with nv := pars.nvisible.getD st0.nv
                   ls := pars.localsize.getD st0.ls })

/-- A concrete local-value→index map on integer local states `{0, 1}`. -/
def exCi : ℤ → Fin 2 := fun z => if z = 1 then 1 else 0

/-- A concrete machine instance: 2 sites, 2 local values, 1 hidden unit. -/
def exM : RbmMultival ℤ 2 2 1 :=
  ⟨true, true, fun i => ((i : ℕ) : ℤ), fun _ => 5, fun i _ => ((i : ℕ) : ℤ) + 1⟩

/-- A concrete base configuration for `exM`. -/
def exV : Fin 2 → ℤ := fun _ => 0

/-- A concrete stand-in for the external `SumLogCosh` primitive. -/
def exSlc : (Fin 1 → ℤ) → ℤ := fun t => t 0

/-- A concrete stand-in for the external complex `tanh`. -/
def exTanh : ℤ → ℤ := fun r => r + 1

/-- A concrete machine with one site, used to exercise duplicate-site moves. -/
def exM9 : RbmMultival ℤ 1 2 1 :=
  ⟨false, false, fun _ => 0, fun _ => 0, fun i _ => if (i : ℕ) = 0 then 1 else 2⟩

/-- A concrete base configuration for `exM9`. -/
def exV9 : Fin 1 → ℤ := fun _ => 0

/-- A concrete configuration-space collaborator: 2 sites, 2 local values. -/
def exHil : Hilbert := ⟨2, 2⟩

/-- A concrete pre-`Load` machine state compatible with `exHil`. -/
def exSt : RbmRaw ℤ := ⟨2, 2, 1, 8, true, true, [0, 0, 0, 0], [0], [[0], [0], [0], [0]]⟩

/-- A record whose `Nvisible` disagrees with `exHil`'s site count. -/
def exRecBadNv : RbmRecord ℤ :=
  ⟨"RbmMultival", some 3, none, some 1, none, none, none, none, none, none⟩

/-- A record with the right tag and dimensions but neither `Nhidden` nor the
legacy `Alpha`. -/
def exRecNoAlpha : RbmRecord ℤ :=
  ⟨"RbmMultival", some 2, some 2, none, none, none, none, none, none, none⟩

/-! ### Helper lemmas -/

theorem siteOf_extIndex (s : Fin nv) (t : Fin ls) : siteOf (extIndex s t) = s :=
  congrArg Prod.fst ((extEquiv nv ls).left_inv (s, t))

theorem tildeOf_extIndex (s : Fin nv) (t : Fin ls) : tildeOf (extIndex s t) = t :=
  congrArg Prod.snd ((extEquiv nv ls).left_inv (s, t))

/-- The theta vector as a sum of one `W` row per site: the extended sum over
the one-hot encoding collapses blockwise. -/
theorem computeTheta_eq_sum_sites (m : RbmMultival R nv ls nh) (ci : V → Fin ls)
    (v : Fin nv → V) (j : Fin nh) :
    ComputeTheta m ci v j = (∑ s : Fin nv, m.W (extIndex s (ci (v s))) j) + m.b j := by
  unfold ComputeTheta
  congr 1
  rw [← Equiv.sum_comp (extEquiv nv ls)
    (fun i => ComputeVtilde (R := R) ci v i * m.W i j)]
  rw [Fintype.sum_prod_type]
  refine Finset.sum_congr rfl fun s _ => ?_
  have hterm : ∀ t : Fin ls,
      ComputeVtilde (R := R) ci v (extEquiv nv ls (s, t))
          * m.W (extEquiv nv ls (s, t)) j
        = if t = ci (v s) then m.W (extIndex s t) j else 0 := by
    intro t
    show ComputeVtilde (R := R) ci v (extIndex s t) * m.W (extIndex s t) j = _
    unfold ComputeVtilde
    rw [siteOf_extIndex, tildeOf_extIndex, ite_mul, one_mul, zero_mul]
  rw [Finset.sum_congr rfl fun t _ => hterm t]
  rw [Finset.sum_ite_eq' Finset.univ (ci (v s)) fun t => m.W (extIndex s t) j]
  rw [if_pos (Finset.mem_univ _)]

theorem updateLookupAux_nil (m : RbmMultival R nv ls nh) (ci : V → Fin ls)
    (v : Fin nv → V) (lt : Fin nh → R) :
    updateLookupAux m ci v [] lt = lt := rfl

theorem updateLookupAux_cons (m : RbmMultival R nv ls nh) (ci : V → Fin ls)
    (v : Fin nv → V) (p : Fin nv × V) (rest : List (Fin nv × V)) (lt : Fin nh → R) :
    updateLookupAux m ci v (p :: rest) lt
      = updateLookupAux m ci v rest
          (fun j => lt j - m.W (extIndex p.1 (ci (v p.1))) j
                         + m.W (extIndex p.1 (ci p.2)) j) := rfl

/-- The lookup update only ever reads the base configuration through the
listed sites, so it is unchanged when the base agrees there. -/
theorem updateLookupAux_congr (m : RbmMultival R nv ls nh) (ci : V → Fin ls)
    (changes : List (Fin nv × V)) (v v' : Fin nv → V)
    (h : ∀ p ∈ changes, v p.1 = v' p.1) (lt : Fin nh → R) :
    updateLookupAux m ci v changes lt = updateLookupAux m ci v' changes lt := by
  induction changes generalizing lt with
  | nil => rfl
  | cons p rest ih =>
    rw [updateLookupAux_cons, updateLookupAux_cons,
      h p (List.mem_cons_self p rest)]
    exact ih (fun q hq => h q (List.mem_cons_of_mem p hq)) _

/-- Closed form of the lookup update: subtract the `W` row of the base
configuration's value once per occurrence of a site in the change list, and
add the row of each listed new value. -/
theorem updateLookupAux_formula (m : RbmMultival R nv ls nh) (ci : V → Fin ls)
    (v : Fin nv → V) (changes : List (Fin nv × V)) (lt : Fin nh → R) :
    updateLookupAux m ci v changes lt
      = fun j =>
          lt j - (changes.map fun p => m.W (extIndex p.1 (ci (v p.1))) j).sum
               + (changes.map fun p => m.W (extIndex p.1 (ci p.2)) j).sum := by
  induction changes generalizing lt with
  | nil => funext j; simp [updateLookupAux_nil]
  | cons p rest ih =>
    rw [updateLookupAux_cons, ih]
    funext j
    simp only [List.map_cons, List.sum_cons]
    ring

/-- One row swap applied to a from-scratch theta gives the from-scratch
theta of the one-site-updated configuration. -/
theorem updateStep_init (m : RbmMultival R nv ls nh) (ci : V → Fin ls)
    (v : Fin nv → V) (s : Fin nv) (x : V) :
    (fun j => InitLookup m ci v j - m.W (extIndex s (ci (v s))) j
                + m.W (extIndex s (ci x)) j)
      = InitLookup m ci (Function.update v s x) := by
  funext j
  unfold InitLookup
  rw [computeTheta_eq_sum_sites, computeTheta_eq_sum_sites]
  have hupd : ∀ s' : Fin nv,
      m.W (extIndex s' (ci (Function.update v s x s'))) j
        = Function.update (fun s'' => m.W (extIndex s'' (ci (v s''))) j) s
            (m.W (extIndex s (ci x)) j) s' := by
    intro s'
    by_cases hss : s' = s
    · subst hss; simp
    · simp [Function.update_noteq hss]
  rw [Finset.sum_congr rfl fun s' _ => hupd s']
  rw [Finset.sum_update_of_mem (Finset.mem_univ s)]
  rw [Finset.sdiff_singleton_eq_erase,
    ← Finset.add_sum_erase Finset.univ _ (Finset.mem_univ s)]
  ring

/-- Core incremental-consistency lemma, for one `UpdateLookup` call over a
duplicate-free zipped change list. -/
theorem updateLookupAux_init (m : RbmMultival R nv ls nh) (ci : V → Fin ls)
    (changes : List (Fin nv × V)) (v : Fin nv → V)
    (h : (changes.map Prod.fst).Nodup) :
    updateLookupAux m ci v changes (InitLookup m ci v)
      = InitLookup m ci (updateConfAux v changes) := by
  induction changes generalizing v with
  | nil => rfl
  | cons p rest ih =>
    rw [List.map_cons, List.nodup_cons] at h
    rw [updateLookupAux_cons, updateStep_init m ci v p.1 p.2]
    rw [updateLookupAux_congr m ci rest v (Function.update v p.1 p.2)
      (fun q hq => (Function.update_noteq
        (fun hqp => h.1 (by rw [← hqp]; exact List.mem_map_of_mem Prod.fst hq))
        p.2 v).symm) _]
    exact ih (Function.update v p.1 p.2) h.2

/-- One `UpdateLookup` call on a from-scratch lookup tracks the updated
configuration, provided the change list is duplicate-free and the parallel
lists have equal length. -/
theorem updateLookup_init (m : RbmMultival R nv ls nh) (ci : V → Fin ls)
    (v : Fin nv → V) (tochange : List (Fin nv)) (newconf : List V)
    (hnd : tochange.Nodup) (hlen : tochange.length = newconf.length) :
    UpdateLookup m ci v tochange newconf (InitLookup m ci v)
      = InitLookup m ci (updateConf v tochange newconf) := by
  unfold UpdateLookup updateConf
  by_cases he : tochange.isEmpty
  · rw [if_pos he]
    have h0 : tochange = [] := List.isEmpty_iff.mp he
    subst h0
    rfl
  · rw [if_neg he]
    apply updateLookupAux_init
    rw [List.map_fst_zip _ _ (le_of_eq hlen)]
    exact hnd

/-! ### Claim C1 -/

/-- C1: Incremental consistency of the lookup cache.  For any configuration
reachable by a sequence of `UpdateLookup` calls starting from
`InitLookup(c)` — each call's change list naming distinct sites, with
matching `tochange`/`newconf` lengths — the cached theta equals `InitLookup`
applied directly to the resulting configuration (exactly, so in particular
`Update(Init(c), [s], [x]) = Init(c with site s set to x)`). -/
theorem updateLookup_consistent_with_initLookup (m : RbmMultival R nv ls nh)
    (ci : V → Fin ls) (v : Fin nv → V)
    (moves : List (List (Fin nv) × List V))
    (h : ∀ mv ∈ moves, mv.1.Nodup ∧ mv.1.length = mv.2.length) :
    (runMoves m ci moves v (InitLookup m ci v)).2
      = InitLookup m ci (runMoves m ci moves v (InitLookup m ci v)).1 := by
  revert h
  induction moves generalizing v with
  | nil => intro h; rfl
  | cons mv rest ih =>
    intro h
    have hmv := h mv (List.mem_cons_self mv rest)
    show (runMoves m ci rest (updateConf v mv.1 mv.2)
        (UpdateLookup m ci v mv.1 mv.2 (InitLookup m ci v))).2
      = InitLookup m ci (runMoves m ci rest (updateConf v mv.1 mv.2)
          (UpdateLookup m ci v mv.1 mv.2 (InitLookup m ci v))).1
    rw [updateLookup_init m ci v mv.1 mv.2 hmv.1 hmv.2]
    exact ih (updateConf v mv.1 mv.2)
      (fun q hq => h q (List.mem_cons_of_mem mv hq))

/-- Witness for C1 at a concrete single-site move. -/
theorem updateLookup_consistent_with_initLookup_witness :
    (∀ mv ∈ [(([0] : List (Fin 2)), ([1] : List ℤ))],
        mv.1.Nodup ∧ mv.1.length = mv.2.length)
    ∧ (runMoves exM exCi [([0], [1])] exV (InitLookup exM exCi exV)).2
        = InitLookup exM exCi
            (runMoves exM exCi [([0], [1])] exV (InitLookup exM exCi exV)).1 :=
  ⟨by decide,
   updateLookup_consistent_with_initLookup exM exCi exV [([0], [1])] (by decide)⟩

/-! ### Flatten helper lemmas -/

theorem getD_finRange_map {α : Type} {n : ℕ} (f : Fin n → α) (d : α) (i : Fin n) :
    ((List.finRange n).map f).getD (i : ℕ) d = f i := by
  have hb : (i : ℕ) < ((List.finRange n).map f).length := by
    simp [List.length_map, List.length_finRange]
  rw [List.getD_eq_getElem _ _ hb, List.getElem_map]
  congr 1
  apply Fin.ext
  simp [List.getElem_finRange]

/-- `getD` inside a flattened list of uniform-length rows. -/
theorem getD_flatten_uniform (rows : List (List R)) (M : ℕ)
    (h : ∀ r ∈ rows, r.length = M) (i j : ℕ) (hi : i < rows.length)
    (hj : j < M) :
    rows.flatten.getD (i * M + j) 0 = (rows.getD i []).getD j 0 := by
  induction rows generalizing i with
  | nil => exact absurd hi (Nat.not_lt_zero _)
  | cons r rest ih =>
    have hr : r.length = M := h r (List.mem_cons_self r rest)
    cases i with
    | zero =>
      rw [Nat.zero_mul, Nat.zero_add, List.getD_cons_zero]
      show (r ++ rest.flatten).getD j 0 = r.getD j 0
      exact List.getD_append _ _ _ _ (hr ▸ hj)
    | succ i' =>
      rw [List.getD_cons_succ]
      have harith : (i' + 1) * M + j = r.length + (i' * M + j) := by
        rw [hr]; ring
      show (r ++ rest.flatten).getD ((i' + 1) * M + j) 0 = _
      rw [harith, List.getD_append_right _ _ _ _ (Nat.le_add_right _ _),
        Nat.add_sub_cancel_left]
      exact ih (fun q hq => h q (List.mem_cons_of_mem r hq)) i'
        (Nat.lt_of_succ_lt_succ hi)

/-- `getD` in the `W`-shaped segment of the flatten. -/
theorem getD_flatten_inner (z : Fin (nv * ls) → Fin nh → R) (i : Fin (nv * ls))
    (j : Fin nh) :
    ((List.finRange (nv * ls)).flatMap fun i => (List.finRange nh).map (z i)).getD
        ((i : ℕ) * nh + (j : ℕ)) 0 = z i j := by
  rw [List.flatMap_def]
  rw [getD_flatten_uniform _ nh
    (fun r hr => by
      rcases List.mem_map.mp hr with ⟨i', _, rfl⟩
      simp [List.length_map, List.length_finRange])
    _ _ (by simp [List.length_map, List.length_finRange]) j.isLt]
  rw [getD_finRange_map (fun i' => (List.finRange nh).map (z i')) [] i]
  exact getD_finRange_map (z i) 0 j

theorem flatten_length (usea useb : Bool) (x : Fin (nv * ls) → R)
    (y : Fin nh → R) (z : Fin (nv * ls) → Fin nh → R) :
    (flatten usea useb x y z).length
      = (if usea then nv * ls else 0) + (if useb then nh else 0) + nv * ls * nh := by
  have hW : ((List.finRange (nv * ls)).flatMap fun i =>
      (List.finRange nh).map (z i)).length = nv * ls * nh := by
    rw [List.length_flatMap]
    have hconst : List.map (List.length ∘ fun i => (List.finRange nh).map (z i))
        (List.finRange (nv * ls)) = List.replicate (nv * ls) nh := by
      have : (List.length ∘ fun i : Fin (nv * ls) => (List.finRange nh).map (z i))
          = Function.const _ nh := by
        funext i; simp [List.length_map, List.length_finRange, Function.const]
      rw [this, List.map_const, List.length_finRange]
    rw [hconst, List.sum_replicate, smul_eq_mul]
  unfold flatten
  cases usea <;> cases useb <;>
    simp [hW, List.length_append, List.length_map, List.length_finRange] <;> ring

/-- The flatten's length is `npar_`. -/
theorem flatten_length_npar (m : RbmMultival R nv ls nh) (x : Fin (nv * ls) → R)
    (y : Fin nh → R) (z : Fin (nv * ls) → Fin nh → R) :
    (flatten m.usea m.useb x y z).length = Npar m := by
  rw [flatten_length]
  unfold Npar
  have hmul : nv * nh * ls = nv * ls * nh := by ring
  rw [hmul]
  ring

/-- `getD` in the `a` segment of the flatten. -/
theorem flatten_getD_a (usea useb : Bool) (x : Fin (nv * ls) → R)
    (y : Fin nh → R) (z : Fin (nv * ls) → Fin nh → R) (hA : usea = true)
    (i : Fin (nv * ls)) :
    (flatten usea useb x y z).getD (i : ℕ) 0 = x i := by
  subst hA
  show (((List.finRange (nv * ls)).map x
      ++ (if useb then (List.finRange nh).map y else []))
      ++ ((List.finRange (nv * ls)).flatMap fun i =>
            (List.finRange nh).map (z i))).getD (i : ℕ) 0 = x i
  rw [List.getD_append _ _ _ _ (by
    have := i.isLt
    simp only [List.length_append, List.length_map, List.length_finRange]
    omega)]
  rw [List.getD_append _ _ _ _ (by
    simp [List.length_map, List.length_finRange])]
  exact getD_finRange_map x 0 i

/-- `getD` in the `b` segment of the flatten. -/
theorem flatten_getD_b (usea useb : Bool) (x : Fin (nv * ls) → R)
    (y : Fin nh → R) (z : Fin (nv * ls) → Fin nh → R) (hB : useb = true)
    (j : Fin nh) :
    (flatten usea useb x y z).getD ((if usea then nv * ls else 0) + (j : ℕ)) 0
      = y j := by
  subst hB
  cases usea with
  | false =>
    show ((([] : List R) ++ (List.finRange nh).map y)
        ++ ((List.finRange (nv * ls)).flatMap fun i =>
              (List.finRange nh).map (z i))).getD (0 + (j : ℕ)) 0 = y j
    rw [List.nil_append, Nat.zero_add]
    rw [List.getD_append _ _ _ _ (by
      simp [List.length_map, List.length_finRange])]
    exact getD_finRange_map y 0 j
  | true =>
    show (((List.finRange (nv * ls)).map x ++ (List.finRange nh).map y)
        ++ ((List.finRange (nv * ls)).flatMap fun i =>
              (List.finRange nh).map (z i))).getD (nv * ls + (j : ℕ)) 0 = y j
    rw [List.getD_append _ _ _ _ (by
      have := j.isLt
      simp only [List.length_append, List.length_map, List.length_finRange]
      omega)]
    rw [List.getD_append_right _ _ _ _ (by
      simp only [List.length_map, List.length_finRange]
      exact Nat.le_add_right _ _)]
    have hx : ((List.finRange (nv * ls)).map x).length = nv * ls := by
      simp [List.length_map, List.length_finRange]
    rw [hx, Nat.add_sub_cancel_left]
    exact getD_finRange_map y 0 j

/-- `getD` in the `W` segment of the flatten. -/
theorem flatten_getD_w (usea useb : Bool) (x : Fin (nv * ls) → R)
    (y : Fin nh → R) (z : Fin (nv * ls) → Fin nh → R) (i : Fin (nv * ls))
    (j : Fin nh) :
    (flatten usea useb x y z).getD
        ((if usea then nv * ls else 0) + (if useb then nh else 0)
          + ((i : ℕ) * nh + (j : ℕ))) 0
      = z i j := by
  cases usea with
  | false =>
    cases useb with
    | false =>
      show ((([] : List R) ++ ([] : List R))
          ++ ((List.finRange (nv * ls)).flatMap fun i =>
                (List.finRange nh).map (z i))).getD
            (0 + 0 + ((i : ℕ) * nh + (j : ℕ))) 0 = z i j
      rw [List.nil_append, List.nil_append]
      simp only [Nat.zero_add]
      exact getD_flatten_inner z i j
    | true =>
      show ((([] : List R) ++ (List.finRange nh).map y)
          ++ ((List.finRange (nv * ls)).flatMap fun i =>
                (List.finRange nh).map (z i))).getD
            (0 + nh + ((i : ℕ) * nh + (j : ℕ))) 0 = z i j
      rw [List.nil_append, Nat.zero_add]
      rw [List.getD_append_right _ _ _ _ (by
        simp only [List.length_map, List.length_finRange]
        exact Nat.le_add_right _ _)]
      have hy : ((List.finRange nh).map y).length = nh := by
        simp [List.length_map, List.length_finRange]
      rw [hy, Nat.add_sub_cancel_left]
      exact getD_flatten_inner z i j
  | true =>
    cases useb with
    | false =>
      show (((List.finRange (nv * ls)).map x ++ ([] : List R))
          ++ ((List.finRange (nv * ls)).flatMap fun i =>
                (List.finRange nh).map (z i))).getD
            (nv * ls + 0 + ((i : ℕ) * nh + (j : ℕ))) 0 = z i j
      rw [List.append_nil, Nat.add_zero]
      rw [List.getD_append_right _ _ _ _ (by
        simp only [List.length_map, List.length_finRange]
        exact Nat.le_add_right _ _)]
      have hx : ((List.finRange (nv * ls)).map x).length = nv * ls := by
        simp [List.length_map, List.length_finRange]
      rw [hx, Nat.add_sub_cancel_left]
      exact getD_flatten_inner z i j
    | true =>
      show (((List.finRange (nv * ls)).map x ++ (List.finRange nh).map y)
          ++ ((List.finRange (nv * ls)).flatMap fun i =>
                (List.finRange nh).map (z i))).getD
            (nv * ls + nh + ((i : ℕ) * nh + (j : ℕ))) 0 = z i j
      rw [List.getD_append_right _ _ _ _ (by
        simp only [List.length_append, List.length_map, List.length_finRange]
        exact Nat.le_add_right _ _)]
      have hxy : ((List.finRange (nv * ls)).map x
          ++ (List.finRange nh).map y).length = nv * ls + nh := by
        simp [List.length_append, List.length_map, List.length_finRange]
      rw [hxy, Nat.add_sub_cancel_left]
      exact getD_flatten_inner z i j

/-! ### Claim C5 -/

/-- C5: the dimension formula.  `npar` equals
`nv*ls*nh + (nv*ls if visible bias) + (nh if hidden bias)` and always equals
the length of `GetParameters`' output. -/
theorem npar_dimension_formula (m : RbmMultival R nv ls nh) :
    Npar m = nv * ls * nh + (if m.usea then nv * ls else 0)
        + (if m.useb then nh else 0)
    ∧ (GetParameters m).length = Npar m := by
  constructor
  · unfold Npar
    have hmul : nv * nh * ls = nv * ls * nh := by ring
    rw [hmul]
  · exact flatten_length_npar m m.a m.b m.W

/-! ### Claim C3 -/

/-- C3: parameter round trip.  For every parameter vector `p` of length
`npar`, `GetParameters (SetParameters m p) = p`, for every combination of
enabled and disabled biases. -/
theorem getParameters_setParameters_roundtrip (m : RbmMultival R nv ls nh)
    (p : List R) (h : p.length = Npar m) :
    GetParameters (SetParameters m p) = p := by
  have hmul : nv * nh * ls = nv * ls * nh := by ring
  have hget : GetParameters (SetParameters m p)
      = flatten m.usea m.useb (SetParameters m p).a (SetParameters m p).b
          (SetParameters m p).W := rfl
  apply List.ext_getElem
  · rw [hget, flatten_length]
    rw [h]
    unfold Npar
    rw [hmul]
    ring
  · intro n h1 h2
    have hn : n < (if m.usea then nv * ls else 0) + (if m.useb then nh else 0)
        + nv * ls * nh := by
      have h2' := h2
      rw [h, Npar, hmul] at h2'
      omega
    rw [← List.getD_eq_getElem (GetParameters (SetParameters m p)) 0 h1,
      ← List.getD_eq_getElem p 0 h2, hget]
    by_cases hc1 : n < (if m.usea then nv * ls else 0)
    · have husea : m.usea = true := by
        cases hu : m.usea
        · rw [hu] at hc1; simp at hc1
        · rfl
      have hnlt : n < nv * ls := by rw [husea] at hc1; simpa using hc1
      have hA := flatten_getD_a m.usea m.useb (SetParameters m p).a
        (SetParameters m p).b (SetParameters m p).W husea ⟨n, hnlt⟩
      rw [show ((⟨n, hnlt⟩ : Fin (nv * ls)) : ℕ) = n from rfl] at hA
      rw [hA]
      show (if m.usea then fun i : Fin (nv * ls) => p.getD (i : ℕ) 0 else m.a)
          ⟨n, hnlt⟩ = p.getD n 0
      rw [if_pos husea]
    · by_cases hc2 : n < (if m.usea then nv * ls else 0)
          + (if m.useb then nh else 0)
      · have huseb : m.useb = true := by
          cases hu : m.useb
          · rw [hu] at hc2; simp at hc2; omega
          · rfl
        have hB : (if m.useb then nh else 0) = nh := by rw [huseb]; rfl
        have hjlt : n - (if m.usea then nv * ls else 0) < nh := by omega
        have hsplit : n = (if m.usea then nv * ls else 0)
            + ((⟨n - (if m.usea then nv * ls else 0), hjlt⟩ : Fin nh) : ℕ) := by
          show n = (if m.usea then nv * ls else 0)
            + (n - (if m.usea then nv * ls else 0))
          omega
        rw [hsplit]
        rw [flatten_getD_b m.usea m.useb (SetParameters m p).a
          (SetParameters m p).b (SetParameters m p).W huseb _]
        show (if m.useb then
            (fun q : Fin nh =>
              p.getD ((if m.usea then nv * ls else 0) + (q : ℕ)) 0)
          else m.b) ⟨n - (if m.usea then nv * ls else 0), hjlt⟩ = _
        rw [if_pos huseb]
      · have hnh : 0 < nh := by
          rcases Nat.eq_zero_or_pos nh with h0 | h0
          · exfalso
            subst h0
            omega
          · exact h0
        have hrem : n - (if m.usea then nv * ls else 0)
            - (if m.useb then nh else 0) < nv * ls * nh := by omega
        have hi : (n - (if m.usea then nv * ls else 0)
            - (if m.useb then nh else 0)) / nh < nv * ls := by
          have hrem2 : n - (if m.usea then nv * ls else 0)
              - (if m.useb then nh else 0) < nh * (nv * ls) := by
            rw [Nat.mul_comm nh (nv * ls)]
            exact hrem
          exact Nat.div_lt_of_lt_mul hrem2
        have hj : (n - (if m.usea then nv * ls else 0)
            - (if m.useb then nh else 0)) % nh < nh := Nat.mod_lt _ hnh
        have hdm : ((n - (if m.usea then nv * ls else 0)
              - (if m.useb then nh else 0)) / nh) * nh
            + (n - (if m.usea then nv * ls else 0)
              - (if m.useb then nh else 0)) % nh
            = n - (if m.usea then nv * ls else 0)
              - (if m.useb then nh else 0) := by
          rw [Nat.mul_comm]
          exact Nat.div_add_mod _ _
        have hsplit : n = (if m.usea then nv * ls else 0)
            + (if m.useb then nh else 0)
            + (((⟨_, hi⟩ : Fin (nv * ls)) : ℕ) * nh
              + ((⟨_, hj⟩ : Fin nh) : ℕ)) := by
          show n = (if m.usea then nv * ls else 0)
            + (if m.useb then nh else 0)
            + (((n - (if m.usea then nv * ls else 0)
                - (if m.useb then nh else 0)) / nh) * nh
              + (n - (if m.usea then nv * ls else 0)
                - (if m.useb then nh else 0)) % nh)
          omega
        rw [hsplit]
        rw [flatten_getD_w m.usea m.useb (SetParameters m p).a
          (SetParameters m p).b (SetParameters m p).W ⟨_, hi⟩ ⟨_, hj⟩]
        rfl

/-- Witness for C3 at a concrete parameter vector of length `npar = 10`. -/
theorem getParameters_setParameters_roundtrip_witness :
    ([3, 1, 4, 1, 5, 9, 2, 6, 5] : List ℤ).length = Npar exM
    ∧ GetParameters
        (SetParameters exM ([3, 1, 4, 1, 5, 9, 2, 6, 5] : List ℤ))
      = [3, 1, 4, 1, 5, 9, 2, 6, 5] :=
  ⟨by decide,
   getParameters_setParameters_roundtrip exM [3, 1, 4, 1, 5, 9, 2, 6, 5]
     (by decide)⟩

/-! ### Claim C4 -/

/-- C4: gradient layout and values.  `DerLogSingleImpl` has length `npar`,
uses exactly the `GetParameters` flatten offsets, its `a` entries are the
one-hot encoding `vtilde`, its `b` entries are `tanh(theta_j)`, and its `W`
entries are `tanh(theta_j) * vtilde_i`. -/
theorem derLogSingle_layout (tanh : R → R) (m : RbmMultival R nv ls nh)
    (ci : V → Fin ls) (v : Fin nv → V) (theta : Fin nh → R) :
    (DerLogSingleImpl tanh m ci v theta).length = Npar m
    ∧ (m.usea = true → ∀ i : Fin (nv * ls),
        (DerLogSingleImpl tanh m ci v theta).getD (i : ℕ) 0
          = ComputeVtilde ci v i)
    ∧ (m.useb = true → ∀ j : Fin nh,
        (DerLogSingleImpl tanh m ci v theta).getD
            ((if m.usea then nv * ls else 0) + (j : ℕ)) 0
          = tanh (theta j))
    ∧ ∀ (i : Fin (nv * ls)) (j : Fin nh),
        (DerLogSingleImpl tanh m ci v theta).getD
            ((if m.usea then nv * ls else 0) + (if m.useb then nh else 0)
              + ((i : ℕ) * nh + (j : ℕ))) 0
          = tanh (theta j) * ComputeVtilde ci v i := by
  refine ⟨flatten_length_npar m _ _ _, fun hA i => ?_, fun hB j => ?_,
    fun i j => ?_⟩
  · exact flatten_getD_a m.usea m.useb _ _ _ hA i
  · exact flatten_getD_b m.usea m.useb _ _ _ hB j
  · exact flatten_getD_w m.usea m.useb _ _ _ i j

/-- Witness for C4 at a concrete machine with both biases enabled. -/
theorem derLogSingle_layout_witness :
    (exM.usea = true ∧ exM.useb = true)
    ∧ (DerLogSingleImpl exTanh exM exCi exV (fun _ => 7)).getD
        (((0 : Fin 4) : ℕ)) 0 = ComputeVtilde exCi exV 0
    ∧ (DerLogSingleImpl exTanh exM exCi exV (fun _ => 7)).getD
        ((if exM.usea then 2 * 2 else 0) + ((0 : Fin 1) : ℕ)) 0
      = exTanh 7 :=
  ⟨⟨rfl, rfl⟩,
   (derLogSingle_layout exTanh exM exCi exV (fun _ => 7)).2.1 rfl 0,
   (derLogSingle_layout exTanh exM exCi exV (fun _ => 7)).2.2.1 rfl 0⟩

/-! ### LogValDiff helper lemmas -/

theorem lvdFold_nil (m : RbmMultival R nv ls nh) (ci : V → Fin ls)
    (v : Fin nv → V) (acc : R × (Fin nh → R)) :
    lvdFold m ci v [] acc = acc := rfl

theorem lvdFold_cons (m : RbmMultival R nv ls nh) (ci : V → Fin ls)
    (v : Fin nv → V) (p : Fin nv × V) (rest : List (Fin nv × V))
    (acc : R × (Fin nh → R)) :
    lvdFold m ci v (p :: rest) acc
      = lvdFold m ci v rest
          (acc.1 - m.a (extIndex p.1 (ci (v p.1)))
            + m.a (extIndex p.1 (ci p.2)),
           fun j => acc.2 j - m.W (extIndex p.1 (ci (v p.1))) j
                            + m.W (extIndex p.1 (ci p.2)) j) := rfl

/-- The scalar component of the per-move fold is the accumulated bias
difference. -/
theorem lvdFold_fst (m : RbmMultival R nv ls nh) (ci : V → Fin ls)
    (v : Fin nv → V) (changes : List (Fin nv × V)) (c : R) (t : Fin nh → R) :
    (lvdFold m ci v changes (c, t)).1
      = c + (changes.map fun p =>
          m.a (extIndex p.1 (ci p.2)) - m.a (extIndex p.1 (ci (v p.1)))).sum := by
  induction changes generalizing c t with
  | nil => simp [lvdFold_nil]
  | cons p rest ih =>
    rw [lvdFold_cons, ih]
    simp only [List.map_cons, List.sum_cons]
    ring

/-- The vector component of the per-move fold is exactly the `UpdateLookup`
row walk applied to the base theta. -/
theorem lvdFold_snd (m : RbmMultival R nv ls nh) (ci : V → Fin ls)
    (v : Fin nv → V) (changes : List (Fin nv × V)) (c : R) (t : Fin nh → R) :
    (lvdFold m ci v changes (c, t)).2 = updateLookupAux m ci v changes t := by
  induction changes generalizing c t with
  | nil => rfl
  | cons p rest ih =>
    rw [lvdFold_cons, updateLookupAux_cons]
    exact ih _ _

/-! ### Claim C2 -/

/-- C2: per-move formula of `LogValDiff`.  The batch has one entry per move;
the `k`-th entry applies the `k`-th move's changes jointly to the same base
configuration `v` — its value is the accumulated bias difference
`Σ (a[new] - a[old])` over the zipped change list plus
`slc(theta') - slc(theta_base)` where `theta'` is `theta_base` with that
single move's row updates applied (`UpdateLookup` from the base, independent
of every other move in the batch). -/
theorem logValDiff_entry_formula (slc : (Fin nh → R) → R)
    (m : RbmMultival R nv ls nh) (ci : V → Fin ls) (v : Fin nv → V)
    (tochange : List (List (Fin nv))) (newconf : List (List V))
    (h : tochange.length = newconf.length) :
    (LogValDiff slc m ci v tochange newconf).length = tochange.length
    ∧ ∀ k, k < tochange.length →
        (LogValDiff slc m ci v tochange newconf).getD k 0
          = (((tochange.getD k []).zip (newconf.getD k [])).map fun p =>
                m.a (extIndex p.1 (ci p.2))
                  - m.a (extIndex p.1 (ci (v p.1)))).sum
            + (slc (UpdateLookup m ci v (tochange.getD k [])
                  (newconf.getD k []) (ComputeTheta m ci v))
               - slc (ComputeTheta m ci v)) := by
  have hzlen : (tochange.zip newconf).length = tochange.length := by
    rw [List.length_zip, h, min_self]
  constructor
  · unfold LogValDiff
    rw [List.length_map, hzlen]
  · intro k hk
    have hk2 : k < newconf.length := h ▸ hk
    have hkz : k < (tochange.zip newconf).length := by rw [hzlen]; exact hk
    unfold LogValDiff
    have hmaplen : k < ((tochange.zip newconf).map fun mv =>
        if mv.1.isEmpty then (0 : R)
        else (lvdFold m ci v (mv.1.zip mv.2) (0, ComputeTheta m ci v)).1
          + (slc (lvdFold m ci v (mv.1.zip mv.2) (0, ComputeTheta m ci v)).2
             - slc (ComputeTheta m ci v))).length := by
      rw [List.length_map]
      exact hkz
    rw [List.getD_eq_getElem _ _ hmaplen, List.getElem_map, List.getElem_zip]
    rw [show tochange[k] = tochange.getD k [] from
        (List.getD_eq_getElem _ _ hk).symm,
      show newconf[k] = newconf.getD k [] from
        (List.getD_eq_getElem _ _ hk2).symm]
    by_cases he : (tochange.getD k []).isEmpty
    · rw [if_pos he]
      have he' : tochange.getD k [] = [] := List.isEmpty_iff.mp he
      rw [he']
      show (0 : R) = (((List.nil.zip (newconf.getD k [])).map fun p =>
          m.a (extIndex p.1 (ci p.2))
            - m.a (extIndex p.1 (ci (v p.1)))).sum)
        + (slc (UpdateLookup m ci v [] (newconf.getD k [])
              (ComputeTheta m ci v))
           - slc (ComputeTheta m ci v))
      rw [List.zip_nil_left, List.map_nil, List.sum_nil]
      rw [show UpdateLookup m ci v [] (newconf.getD k [])
          (ComputeTheta m ci v) = ComputeTheta m ci v from rfl]
      ring
    · rw [if_neg he]
      rw [lvdFold_fst, lvdFold_snd, zero_add]
      rw [show UpdateLookup m ci v (tochange.getD k []) (newconf.getD k [])
            (ComputeTheta m ci v)
          = updateLookupAux m ci v
              ((tochange.getD k []).zip (newconf.getD k []))
              (ComputeTheta m ci v) from by
        unfold UpdateLookup
        rw [if_neg he]]

/-- Witness for C2 at a concrete two-move batch. -/
theorem logValDiff_entry_formula_witness :
    ([[(0 : Fin 2)], []].length = ([[(1 : ℤ)], []] : List (List ℤ)).length)
    ∧ (LogValDiff exSlc exM exCi exV [[(0 : Fin 2)], []] [[(1 : ℤ)], []]).getD 0 0
        = ((([[(0 : Fin 2)], []].getD 0 []).zip
              (([[(1 : ℤ)], []] : List (List ℤ)).getD 0 [])).map fun p =>
            exM.a (extIndex p.1 (exCi p.2))
              - exM.a (extIndex p.1 (exCi (exV p.1)))).sum
          + (exSlc (UpdateLookup exM exCi exV ([[(0 : Fin 2)], []].getD 0 [])
                (([[(1 : ℤ)], []] : List (List ℤ)).getD 0 [])
                (ComputeTheta exM exCi exV))
             - exSlc (ComputeTheta exM exCi exV)) :=
  ⟨rfl,
   (logValDiff_entry_formula exSlc exM exCi exV [[(0 : Fin 2)], []]
       [[(1 : ℤ)], []] rfl).2 0 (by decide)⟩

/-! ### Claim C6 -/

/-- C6: zero-move identity.  A move with an empty change list yields exactly
the scalar `0`, with no tolerance involved. -/
theorem logValDiff_empty_move_zero (slc : (Fin nh → R) → R)
    (m : RbmMultival R nv ls nh) (ci : V → Fin ls) (v : Fin nv → V)
    (tochange : List (List (Fin nv))) (newconf : List (List V)) (k : ℕ)
    (h : tochange.length = newconf.length) (hk : k < tochange.length)
    (he : tochange.getD k [] = []) :
    (LogValDiff slc m ci v tochange newconf).getD k 0 = 0 := by
  have hzlen : (tochange.zip newconf).length = tochange.length := by
    rw [List.length_zip, h, min_self]
  have hkz : k < (tochange.zip newconf).length := by rw [hzlen]; exact hk
  unfold LogValDiff
  have hmaplen : k < ((tochange.zip newconf).map fun mv =>
      if mv.1.isEmpty then (0 : R)
      else (lvdFold m ci v (mv.1.zip mv.2) (0, ComputeTheta m ci v)).1
        + (slc (lvdFold m ci v (mv.1.zip mv.2) (0, ComputeTheta m ci v)).2
           - slc (ComputeTheta m ci v))).length := by
    rw [List.length_map]
    exact hkz
  rw [List.getD_eq_getElem _ _ hmaplen, List.getElem_map, List.getElem_zip]
  rw [show tochange[k] = tochange.getD k [] from
      (List.getD_eq_getElem _ _ hk).symm]
  rw [he]
  rfl

/-- Witness for C6: a batch whose sole move has an empty change list. -/
theorem logValDiff_empty_move_zero_witness :
    (([[]] : List (List (Fin 2))).length = ([[]] : List (List ℤ)).length
      ∧ 0 < ([[]] : List (List (Fin 2))).length
      ∧ ([[]] : List (List (Fin 2))).getD 0 [] = [])
    ∧ (LogValDiff exSlc exM exCi exV ([[]] : List (List (Fin 2)))
        ([[]] : List (List ℤ))).getD 0 0 = 0 :=
  ⟨⟨rfl, by decide, rfl⟩,
   logValDiff_empty_move_zero exSlc exM exCi exV [[]] [[]] 0 rfl (by decide) rfl⟩

/-! ### Claim C8 -/

/-- C8: frame property of `LogValDiff`.  The state-passing form leaves the
parameters `a`, `b`, `W` and the persistent lookup cache unchanged (only the
scratch members `thetas_`/`thetasnew_` are written), and the returned batch
depends only on the parameters, base configuration and moves — so two
identical calls return the same results. -/
theorem logValDiff_frame (slc : (Fin nh → R) → R) (ci : V → Fin ls)
    (st : EvalState R nv ls nh) (v : Fin nv → V)
    (tochange : List (List (Fin nv))) (newconf : List (List V)) :
    (LogValDiffSt slc ci st v tochange newconf).1.m = st.m
    ∧ (LogValDiffSt slc ci st v tochange newconf).1.lookup = st.lookup
    ∧ ∀ st' : EvalState R nv ls nh, st'.m = st.m →
        (LogValDiffSt slc ci st' v tochange newconf).2
          = (LogValDiffSt slc ci st v tochange newconf).2 := by
  refine ⟨rfl, rfl, fun st' hm => ?_⟩
  show LogValDiff slc st'.m ci v tochange newconf
    = LogValDiff slc st.m ci v tochange newconf
  rw [hm]

/-- Witness for C8: two states sharing the parameters but with different
lookup caches and scratch buffers give the same batch. -/
theorem logValDiff_frame_witness :
    ((⟨exM, fun _ => 3, fun _ => 4, fun _ => 5⟩ : EvalState ℤ 2 2 1).m
        = (⟨exM, fun _ => 0, fun _ => 0, fun _ => 0⟩ : EvalState ℤ 2 2 1).m)
    ∧ (LogValDiffSt exSlc exCi
          (⟨exM, fun _ => 3, fun _ => 4, fun _ => 5⟩ : EvalState ℤ 2 2 1)
          exV [[(0 : Fin 2)]] [[(1 : ℤ)]]).2
        = (LogValDiffSt exSlc exCi
            (⟨exM, fun _ => 0, fun _ => 0, fun _ => 0⟩ : EvalState ℤ 2 2 1)
            exV [[(0 : Fin 2)]] [[(1 : ℤ)]]).2 :=
  ⟨rfl,
   (logValDiff_frame exSlc exCi
       (⟨exM, fun _ => 0, fun _ => 0, fun _ => 0⟩ : EvalState ℤ 2 2 1)
       exV [[(0 : Fin 2)]] [[(1 : ℤ)]]).2.2
     (⟨exM, fun _ => 3, fun _ => 4, fun _ => 5⟩ : EvalState ℤ 2 2 1) rfl⟩

/-! ### Claim C9 -/

/-- C9: in one `UpdateLookup` call the old extended index is recomputed from
the unchanged input configuration `v` for every entry of the change list —
even for repeated sites — so the result subtracts the `W` row of `v`'s value
once per occurrence and adds the row of each listed new value; and this
differs from applying the changes as a sequential chain, as the concrete
duplicate-site call `[0, 0] / [1, 1]` on `exM9` shows. -/
theorem updateLookup_duplicate_semantics (m : RbmMultival R nv ls nh)
    (ci : V → Fin ls) (v : Fin nv → V) (tochange : List (Fin nv))
    (newconf : List V) (lt : Fin nh → R) :
    UpdateLookup m ci v tochange newconf lt
      = (fun j => lt j
          - ((tochange.zip newconf).map fun p =>
              m.W (extIndex p.1 (ci (v p.1))) j).sum
          + ((tochange.zip newconf).map fun p =>
              m.W (extIndex p.1 (ci p.2)) j).sum)
    ∧ UpdateLookup exM9 exCi exV9 [0, 0] [1, 1] (fun _ => 0)
        ≠ updateLookupChained exM9 exCi exV9 [0, 0] [1, 1] (fun _ => 0) := by
  constructor
  · unfold UpdateLookup
    by_cases he : tochange.isEmpty
    · rw [if_pos he]
      have h0 : tochange = [] := List.isEmpty_iff.mp he
      subst h0
      funext j
      rw [List.zip_nil_left, List.map_nil, List.sum_nil, List.map_nil, List.sum_nil]
      ring
    · rw [if_neg he]
      exact updateLookupAux_formula m ci v (tochange.zip newconf) lt
  · decide

/-! ### Claim C7 -/

/-- C7 counterexample: a record whose `Nvisible` (3) disagrees with the
collaborator's site count (2) makes `Load` fail with the incompatibility
error, but the machine is NOT left unchanged — the dimension field `nv_` has
already been overwritten with the record's value before the check runs. -/
theorem load_partial_mutation_counterexample :
    Load exHil exSt exRecBadNv
      = Except.error ("Loaded wave-function has incompatible Hilbert space",
          { exSt with nv := 3 })
    ∧ ({ exSt with nv := 3 } : RbmRaw ℤ).nv ≠ exSt.nv := by
  constructor
  · rfl
  · decide

/-- C7 (amended): on a dimension mismatch `Load` does fail with the
incompatibility error, and no parameters are loaded — `a`, `b`, `W`, the
hidden count, `npar` and the bias flags are untouched on every failure path —
but the scalar dimension fields `nv_`/`ls_` may already hold the record's
values at the moment of the throw, so the machine's dimensions are not
necessarily unchanged. -/
theorem load_error_preserves_parameters (hil : Hilbert) (st : RbmRaw R)
    (pars : RbmRecord R) :
    (pars.name = "RbmMultival" →
      (pars.nvisible.getD st.nv ≠ hil.size
        ∨ pars.localsize.getD st.ls ≠ hil.localSize) →
      ∃ st', Load hil st pars
        = Except.error
            ("Loaded wave-function has incompatible Hilbert space", st'))
    ∧ ∀ msg st', Load hil st pars = Except.error (msg, st') →
        st'.nh = st.nh ∧ st'.npar = st.npar ∧ st'.usea = st.usea
          ∧ st'.useb = st.useb ∧ st'.a = st.a ∧ st'.b = st.b
          ∧ st'.w = st.w := by
  constructor
  · intro hname hbad
    unfold Load
    rw [if_neg (fun hc => hc hname)]
    by_cases h1 : pars.nvisible.getD st.nv ≠ hil.size
    · rw [if_pos h1]
      exact ⟨_, rfl⟩
    · rw [if_neg h1]
      have h2 : pars.localsize.getD st.ls ≠ hil.localSize := by tauto
      rw [if_pos h2]
      exact ⟨_, rfl⟩
  · intro msg st' hEq
    unfold Load at hEq
    by_cases hname : pars.name ≠ "RbmMultival"
    · rw [if_pos hname] at hEq
      injection hEq with hp
      injection hp with ha hb
      subst hb
      exact ⟨rfl, rfl, rfl, rfl, rfl, rfl, rfl⟩
    · rw [if_neg hname] at hEq
      by_cases h1 : pars.nvisible.getD st.nv ≠ hil.size
      · rw [if_pos h1] at hEq
        injection hEq with hp
        injection hp with ha hb
        subst hb
        exact ⟨rfl, rfl, rfl, rfl, rfl, rfl, rfl⟩
      · rw [if_neg h1] at hEq
        by_cases h2 : pars.localsize.getD st.ls ≠ hil.localSize
        · rw [if_pos h2] at hEq
          injection hEq with hp
          injection hp with ha hb
          subst hb
          exact ⟨rfl, rfl, rfl, rfl, rfl, rfl, rfl⟩
        · rw [if_neg h2] at hEq
          rcases hnn : pars.nhidden with _ | n
          · rcases hal : pars.alpha with _ | al
            · rw [hnn, hal] at hEq
              injection hEq with hp
              injection hp with ha hb
              subst hb
              exact ⟨rfl, rfl, rfl, rfl, rfl, rfl, rfl⟩
            · rw [hnn, hal] at hEq
              exact Except.noConfusion hEq
          · rw [hnn] at hEq
            exact Except.noConfusion hEq

/-- Witness for the amended C7 at the concrete mismatching record. -/
theorem load_error_preserves_parameters_witness :
    (exRecBadNv.name = "RbmMultival"
      ∧ (exRecBadNv.nvisible.getD exSt.nv ≠ exHil.size
          ∨ exRecBadNv.localsize.getD exSt.ls ≠ exHil.localSize))
    ∧ (∃ st', Load exHil exSt exRecBadNv
        = Except.error
            ("Loaded wave-function has incompatible Hilbert space", st')) :=
  ⟨⟨rfl, by decide⟩,
   (load_error_preserves_parameters exHil exSt exRecBadNv).1 rfl (by decide)⟩

/-! ### Claim C10 -/

/-- C10: a record with the correct type tag and compatible dimensions but
with neither an `Nhidden` field nor a legacy `Alpha` field makes `Load` fail
with an error (the mandatory `FieldVal(pars, "Alpha")` read throws) instead
of keeping the previous hidden-unit count. -/
theorem load_missing_nhidden_alpha_errors (hil : Hilbert) (st : RbmRaw R)
    (pars : RbmRecord R) (hname : pars.name = "RbmMultival")
    (hnv : pars.nvisible.getD st.nv = hil.size)
    (hls : pars.localsize.getD st.ls = hil.localSize)
    (hnh : pars.nhidden = none) (hal : pars.alpha = none) :
    ∃ e, Load hil st pars = Except.error e := by
  unfold Load
  rw [if_neg (fun hc => hc hname), if_neg (fun hc => hc hnv),
    if_neg (fun hc => hc hls), hnh, hal]
  exact ⟨_, rfl⟩

/-- Witness for C10 at the concrete record lacking both fields. -/
theorem load_missing_nhidden_alpha_errors_witness :
    (exRecNoAlpha.name = "RbmMultival"
      ∧ exRecNoAlpha.nvisible.getD exSt.nv = exHil.size
      ∧ exRecNoAlpha.localsize.getD exSt.ls = exHil.localSize
      ∧ exRecNoAlpha.nhidden = none ∧ exRecNoAlpha.alpha = none)
    ∧ ∃ e, Load exHil exSt exRecNoAlpha = Except.error e :=
  ⟨⟨rfl, by decide, by decide, rfl, rfl⟩,
   load_missing_nhidden_alpha_errors exHil exSt exRecNoAlpha rfl (by decide)
     (by decide) rfl rfl⟩

end Netket
